import Mathlib

/-!
Verification of the enrichment-analysis pipeline of the Bac7 repository.

The Lean definitions below are shallow embeddings of the Python functions in
`src/py/enrichment.py`, `src/py/data.py` and the orchestration scripts
`paper/figure_1b.py` and `paper/suppl_table_5.py`.  Numeric values are
modelled with exact rationals (`ℚ`); pandas Series/DataFrames are modelled
with plain lists; the numpy random permutations consumed by
`enrichment_scores_null` are modelled by an explicit oracle argument
supplying one index permutation per trial.
-/

/-- Number of occurrences of `acid` in the label sequence, i.e. the value
`df.value_counts()[acid]` used by `enrichment_curves` (enrichment.py:64-68). -/
def countLabel (labels : List String) (acid : String) : ℕ :=
  labels.count acid

/-- Per-row increment array built by the masked assignments in
enrichment.py:75-82: `+1/m` at rows equal to `acid`, `-1/(n-m)` elsewhere,
where `n` is the sequence length and `m = countLabel labels acid`. -/
def increments (labels : List String) (acid : String) : List ℚ :=
  labels.map (fun x =>
    if x = acid then 1 / (countLabel labels acid : ℚ)
    else -1 / ((labels.length : ℚ) - (countLabel labels acid : ℚ)))

/-- Cumulative sums starting from an accumulator, modelling `np.cumsum` /
`pandas.Series.cumsum`. -/
def cumsumFrom (acc : ℚ) : List ℚ → List ℚ
  | [] => []
  | x :: xs => (acc + x) :: cumsumFrom (acc + x) xs

/-- Cumulative sum of a list (`cumsum` in enrichment.py:84 and
`np.cumsum` in enrichment.py:135). -/
def cumsum (xs : List ℚ) : List ℚ :=
  cumsumFrom 0 xs

/-- Embedding of `enrichment_curves` (enrichment.py:41-84): if the acid does
not occur, the empty list is returned (enrichment.py:73); otherwise the
cumulative sum of the increment array. -/
def enrichment_curves (labels : List String) (acid : String) : List ℚ :=
  if countLabel labels acid = 0 then [] else cumsum (increments labels acid)

/-- Maximum of a list of rationals, modelling `np.max`; 0 for the empty list
(numpy raises there, and all uses are guarded by non-emptiness). -/
def listMax : List ℚ → ℚ
  | [] => 0
  | [x] => x
  | x :: y :: ys => max x (listMax (y :: ys))

/-- First index at which the maximum of the list is attained, modelling
`np.argmax` (which returns the first maximising index). -/
def argmaxIdx (xs : List ℚ) : ℕ :=
  xs.indexOf (listMax xs)

/-- Embedding of `enrichment_score` (enrichment.py:148-159):
`curve[np.abs(curve).argmax()]`, the curve entry of largest absolute value
with its sign preserved, the first one on ties. -/
def enrichment_score (curve : List ℚ) : ℚ :=
  curve.getD (argmaxIdx (curve.map (fun x => |x|))) 0

/-- Arithmetic mean of a list, modelling `np.mean` (sum divided by length;
the empty list is never passed by the guarded callers). -/
def listMean (xs : List ℚ) : ℚ :=
  xs.sum / (xs.length : ℚ)

/-- Modelled from the spec: `enrichment_auc` is invoked by every paper
script (`paper/figure_1b.py:79`, `paper/figure_2b.py:37`,
`paper/suppl_table_5.py:41`) but its definition is absent from
`src/py/enrichment.py`; the spec (section 4.4) defines the mean-mode
reducer as the arithmetic mean of all curve entries, matching the
`np.mean` used for the null scores in enrichment.py:138. -/
def enrichment_auc (curve : List ℚ) : ℚ :=
  listMean curve

/-- Embedding of `twosided_pvalue` (enrichment.py:177-194). -/
def twosided_pvalue (obs : ℚ) (null : List ℚ) : ℚ :=
  if null.length = 0 then 1
  else ((null.filter (fun x => decide (|x| ≥ |obs|))).length : ℚ) / (null.length : ℚ)

/-- Application of an index permutation to a list, modelling
`np.random.permutation(curve)` once the random permutation of indices is
fixed: entry `k` of the result is the entry of `xs` at index `p k`. -/
def applyPerm (p : List ℕ) (xs : List ℚ) : List ℚ :=
  p.map (fun i => xs.getD i 0)

/-- State of the repeatedly reassigned `curve` variable in the permutation
loop of `enrichment_scores_null` (enrichment.py:133-134): trial `k` permutes
the array left by trial `k - 1`. -/
def permuted (perms : ℕ → List ℕ) (xs : List ℚ) : ℕ → List ℚ
  | 0 => xs
  | k + 1 => applyPerm (perms k) (permuted perms xs k)

/-- Reduction of one permuted cumulative curve to a scalar
(enrichment.py:137-143): mean for mode auc, most extreme value for mode
max, failure for any other mode. -/
def reduceMode (mode : String) (c : List ℚ) : Option ℚ :=
  if mode = "auc" then some (listMean c)
  else if mode = "max" then some (enrichment_score c)
  else none

/-- Embedding of `enrichment_scores_null` (enrichment.py:87-145).  The numpy
random generator is modelled by the oracle `perms` giving the index
permutation drawn in each trial; an invalid mode poisons the result
(`none`), modelling the failure of the reference loop. -/
def enrichment_scores_null (labels : List String) (acid : String)
    (n_perm : ℕ) (mode : String) (perms : ℕ → List ℕ) : Option (List ℚ) :=
  if countLabel labels acid = 0 then some []
  else (List.range n_perm).mapM
    (fun k => reduceMode mode (cumsum (permuted perms (increments labels acid) (k + 1))))

/-- Insertion of an element into a list, in front of the first entry it
compares `le` to; auxiliary for `sortBy`. -/
def insertSorted {α : Type} (le : α → α → Bool) (x : α) : List α → List α
  | [] => [x]
  | y :: ys => if le x y then x :: y :: ys else y :: insertSorted le x ys

/-- Insertion sort, modelling Python's `sorted`.  Python's sort is stable,
and every comparator used below is a total order without ties (the
Benjamini-Hochberg key carries the original index as tie-break, and string
sorting has no duplicate inputs that matter), so the sorted arrangement is
unique and equals the stable one. -/
def sortBy {α : Type} (le : α → α → Bool) : List α → List α
  | [] => []
  | x :: xs => insertSorted le x (sortBy le xs)

/-- Non-strict comparison of flat p-value indices by (value, index), the key
used by `sorted(range(size), key=lambda x: pvals[x])` in
enrichment.py:238 together with the stability of Python's sort. -/
def leIdx (p : List ℚ) (i j : ℕ) : Bool :=
  decide (p.getD i 0 < p.getD j 0 ∨ (p.getD i 0 = p.getD j 0 ∧ i ≤ j))

/-- Strict version of `leIdx`. -/
def ltIdx (p : List ℚ) (i j : ℕ) : Bool :=
  decide (p.getD i 0 < p.getD j 0 ∨ (p.getD i 0 = p.getD j 0 ∧ i < j))

/-- Sorting indices of the flat p-value array ascending by value
(enrichment.py:238), ties broken by original position as Python's stable
sort does. -/
def sortIdx (p : List ℚ) : List ℕ :=
  sortBy (leIdx p) (List.range p.length)

/-- Embedding of `benjamini_hochberg` (enrichment.py:221-247): index `i`
receives the threshold `alpha * (rank of i in the ascending sort) / N`
(the scatter `qvals_arr[sort_idx] = arange(1, N+1)/N; qvals_arr *= alpha`
read off at position `i`), and is significant iff its p-value is at most
its threshold.  Returns the significance list and the threshold list. -/
def benjamini_hochberg (pvalues : List ℚ) (alpha : ℚ) : List Bool × List ℚ :=
  let N := pvalues.length
  let sort_idx := sortIdx pvalues
  let qvals := (List.range N).map
    (fun i => alpha * ((((sort_idx.indexOf i) + 1 : ℕ) : ℚ) / (N : ℚ)))
  ((List.range N).map (fun i => decide (pvalues.getD i 0 ≤ qvals.getD i 0)), qvals)

/-- Rebuilding of a flat boolean array into `r` rows of `c` columns,
modelling `significant.reshape([n_rows, n_cols])` (enrichment.py:216). -/
def reshape2 : ℕ → ℕ → List Bool → List (List Bool)
  | 0, _, _ => []
  | r + 1, c, xs => xs.take c :: reshape2 r c (xs.drop c)

/-- Embedding of `fdr_correction` (enrichment.py:197-218): flatten the
matrix in row-major order, run `benjamini_hochberg` once globally, reshape
the boolean result back to the input shape. -/
def fdr_correction (pvalues : List (List ℚ)) (alpha : ℚ) : List (List Bool) :=
  reshape2 pvalues.length (pvalues.headD []).length
    ((benjamini_hochberg pvalues.flatten alpha).1)

/-- Specification-side 1-indexed ascending rank of flat index `i` among the
p-values, with ties broken by original position: the number of indices
sorting strictly before `i`, plus one. -/
def bh_rank (p : List ℚ) (i : ℕ) : ℕ :=
  (List.range p.length).countP (fun j => ltIdx p j i) + 1

/-- Stripping of the characters of the string Pos from both ends of a
column label, modelling `column.strip('Pos')` (enrichment.py:29). -/
def stripPosChars (s : String) : String :=
  String.mk (((s.data.dropWhile (fun c => c = 'P' ∨ c = 'o' ∨ c = 's')).reverse.dropWhile
    (fun c => c = 'P' ∨ c = 'o' ∨ c = 's')).reverse)

/-- Decimal parsing of a character list, modelling Python's `int` on a
digit string: defined exactly on non-empty all-digit strings. -/
def parseNat (cs : List Char) : Option ℕ :=
  if cs ≠ [] ∧ cs.all Char.isDigit then
    some (cs.foldl (fun acc c => acc * 10 + (c.toNat - ('0').toNat)) 0)
  else none

/-- Numeric value of a positional column label, modelling
`int(column.strip('Pos'))` (enrichment.py:29); 0 if the remainder is not a
numeral (where Python would raise instead, a case no caller reaches). -/
def posNumber (column : String) : ℕ :=
  (parseNat (stripPosChars column).data).getD 0

/-- Extraction of one column of the positional matrix together with the row
index labels, modelling `df[column]` for a data frame given as rows of
`(index label, cells)` with named columns. -/
def dfColumn (columns : List String) (rows : List (ℕ × List String))
    (column : String) : List (ℕ × String) :=
  rows.map (fun r => (r.1, r.2.getD (columns.indexOf column) ""))

/-- Embedding of `remove_peptides_with_stopcodon` (enrichment.py:7-38):
computes `row_remove` by zipping the stop-codon row labels with their
1-based stop positions and keeping those strictly before the current
column's number, then drops those row labels from the column.  `none`
models the `KeyError` pandas raises when a dropped label is absent. -/
def remove_peptides_with_stopcodon (columns : List String)
    (rows : List (ℕ × List String)) (column : String)
    (sc_index sc_col : List ℕ) : Option (List (ℕ × String)) :=
  let data := dfColumn columns rows column
  let col_value := posNumber column
  let row_remove :=
    ((sc_index.zip sc_col).filter (fun pr => decide (pr.2 < col_value))).map
      (fun pr => pr.1)
  if row_remove.length > 0 then
    if row_remove.all (fun x => (data.map (fun r => r.1)).contains x) then
      some (data.filter (fun r => !(row_remove.contains r.1)))
    else none
  else some data

/-- Lexicographic strict comparison of character lists, the order Python
uses on strings. -/
def lexLtChars : List Char → List Char → Bool
  | [], [] => false
  | [], _ :: _ => true
  | _ :: _, [] => false
  | a :: as, b :: bs => if a < b then true else if b < a then false else lexLtChars as bs

/-- Non-strict string comparison for `sorted` over strings. -/
def strLeB (a b : String) : Bool :=
  !(lexLtChars b.data a.data)

/-- Sorted list of strings, modelling Python's `sorted` on strings. -/
def sortStrings (l : List String) : List String :=
  sortBy strLeB l

/-- Column lookup in a column-oriented data frame, modelling `df[name]`. -/
def getCol (df : List (String × List String)) (name : String) : List String :=
  ((df.find? (fun col => col.1 == name)).map (fun col => col.2)).getD []

/-- Row selection by boolean mask, modelling `df.loc[mask]`. -/
def applyMask {α : Type} (mask : List Bool) (xs : List α) : List α :=
  (xs.zip mask).filterMap (fun pr => if pr.2 then some pr.1 else none)

/-- Row filtering of every column of a data frame by one boolean mask,
modelling `df.loc[df[position1] == acid1]` (suppl_table_5.py:87). -/
def filterRows (df : List (String × List String)) (mask : List Bool) :
    List (String × List String) :=
  df.map (fun col => (col.1, applyMask mask col.2))

/-- Column removal, modelling `df.drop(position1, axis=1)`
(suppl_table_5.py:88). -/
def dropCol (df : List (String × List String)) (name : String) :
    List (String × List String) :=
  df.filter (fun col => !(col.1 == name))

/-- Embedding of `data.aa_from_df` (data.py:38-48): the sorted set of all
cell values of the data frame. -/
def aa_from_df (df : List (String × List String)) : List String :=
  (sortStrings (df.flatMap (fun col => col.2))).dedup

/-- Mode dispatch of `get_all_scores` (suppl_table_5.py:36-43): most
extreme curve value for mode max, curve mean for mode auc.  The
`NotImplementedError` branch for other modes is not modelled; theorems
about the scan restrict the mode to the two implemented values. -/
def scoreReduce (mode : String) (curve : List ℚ) : ℚ :=
  if mode = "max" then enrichment_score curve else enrichment_auc curve

/-- Score of one (position, acid) cell of a data frame, the value stored in
the `scores` dictionary built by `get_all_scores` (suppl_table_5.py:27-45). -/
def scoreOf (df : List (String × List String)) (mode : String)
    (pos acid : String) : ℚ :=
  scoreReduce mode (enrichment_curves (getCol df pos) acid)

/-- Record emitted by the pairwise conditional scan
(suppl_table_5.py:98-106): conditioning pair, re-tested pair, conditioned
score, original score and their difference. -/
structure InteractionRecord where
  acid1 : String
  position1 : String
  acid2 : String
  position2 : String
  score2 : ℚ
  original2 : ℚ
  delta : ℚ

/-- Embedding of the double loop of `main` in suppl_table_5.py:75-106: for
every conditioning pair (position1, acid1) in sorted order, filter the rows
where `position1` holds `acid1`, drop `position1` as a column, recompute
all scores on the filtered frame and emit one record per remaining
(position2, acid2) pair with the score difference. -/
def conditional_interactions (df : List (String × List String))
    (mode : String) : List InteractionRecord :=
  (sortStrings (df.map (fun col => col.1))).flatMap (fun position1 =>
    (aa_from_df df).flatMap (fun acid1 =>
      let mask := (getCol df position1).map (fun v => v == acid1)
      let dfF := dropCol (filterRows df mask) position1
      (sortStrings (dfF.map (fun col => col.1))).flatMap (fun position2 =>
        (aa_from_df dfF).map (fun acid2 =>
          let score2 := scoreOf dfF mode position2 acid2
          let orig := scoreOf df mode position2 acid2
          ⟨acid1, position1, acid2, position2, score2, orig, score2 - orig⟩))))

/-- Two-position, one-row data frame used to exhibit a concrete emitted
record of the conditional scan. -/
def exampleFrame : List (String × List String) :=
  [("Pos01", ["A"]), ("Pos02", ["B"])]

/-- Conditioning mask of `exampleFrame` on (Pos01, A). -/
def exampleMask : List Bool :=
  (getCol exampleFrame "Pos01").map (fun v => v == "A")

/-- Filtered frame of `exampleFrame` conditioned on (Pos01, A). -/
def exampleFiltered : List (String × List String) :=
  dropCol (filterRows exampleFrame exampleMask) "Pos01"

/-- One record the conditional scan emits on `exampleFrame` in mode auc. -/
def exampleRecord : InteractionRecord :=
  ⟨"A", "Pos01", "B", "Pos02", scoreOf exampleFiltered "auc" "Pos02" "B",
    scoreOf exampleFrame "auc" "Pos02" "B",
    scoreOf exampleFiltered "auc" "Pos02" "B" - scoreOf exampleFrame "auc" "Pos02" "B"⟩

/-- Label of the column created for 0-based position `p` by `data.load`
(data.py:24-28): the 1-based number prefixed with Pos0 when `p` is below
10 and with Pos otherwise. -/
def posLabel (p : ℕ) : String :=
  if p < 10 then "Pos0" ++ toString (p + 1) else "Pos" ++ toString (p + 1)

/-- Single character of a sequence string at offset `p` as a 1-character
string, modelling `x[p]` in data.py:29. -/
def seqCharAt (s : String) (p : ℕ) : String :=
  String.mk [s.data.getD p ' ']

/-- Keyed column assignment `df[pos] = values`: overwrite in place if the
label already exists, append at the end otherwise. -/
def dfAssign (df : List (String × List String)) (name : String)
    (vals : List String) : List (String × List String) :=
  if df.any (fun col => col.1 == name) then
    df.map (fun col => if col.1 == name then (name, vals) else col)
  else df ++ [(name, vals)]

/-- Embedding of `data.load` (data.py:7-35): starting from the raw columns
Sequence, shrunken.log2.fold.change and ID, assign one column per requested
position holding the sequence character at that offset, then drop the three
raw columns. -/
def load (seqs fold ids : List String) (positions : List ℕ) :
    List (String × List String) :=
  let df0 : List (String × List String) :=
    [("Sequence", seqs), ("shrunken.log2.fold.change", fold), ("ID", ids)]
  let df1 := positions.foldl
    (fun acc p => dfAssign acc (posLabel p) (seqs.map (fun s => seqCharAt s p))) df0
  ((df1.filter (fun col => !(col.1 == "Sequence"))).filter
    (fun col => !(col.1 == "shrunken.log2.fold.change"))).filter
    (fun col => !(col.1 == "ID"))

/-- Raw p-value of one cell of the figure_1b matrices
(figure_1b.py:44-99): the matrix is initialised with `np.zeros`, a cell
whose acid does not occur in its (stop-codon filtered) column is skipped by
`continue` and keeps the initial 0, and any other cell receives the
two-sided permutation p-value of the observed AUC. -/
def pval_raw_cell (col : List String) (aa : String) (n_perm : ℕ)
    (perms : ℕ → List ℕ) : ℚ :=
  if countLabel col aa = 0 then 0
  else twosided_pvalue (enrichment_auc (enrichment_curves col aa))
    ((enrichment_scores_null col aa n_perm "auc" perms).getD [])

/-- Raw p-value matrix `out_dict['pval_raw']` of figure_1b.py, rows indexed
by position, columns by acid, each column already stop-codon filtered. -/
def pval_raw_matrix (cols : List (List String)) (acids : List String)
    (n_perm : ℕ) (perms : ℕ → List ℕ) : List (List ℚ) :=
  cols.map (fun col => acids.map (fun aa => pval_raw_cell col aa n_perm perms))

theorem cumsumFrom_length (acc : ℚ) (xs : List ℚ) :
    (cumsumFrom acc xs).length = xs.length := by
  induction xs generalizing acc with
  | nil => rfl
  | cons x xs ih => simp [cumsumFrom, ih]

theorem cumsumFrom_getD (acc : ℚ) (xs : List ℚ) (k : ℕ) (hk : k < xs.length) :
    (cumsumFrom acc xs).getD k 0 = acc + (xs.take (k + 1)).sum := by
  induction xs generalizing acc k with
  | nil => simp at hk
  | cons x xs ih =>
    cases k with
    | zero => simp [cumsumFrom]
    | succ k =>
      simp only [cumsumFrom, List.getD_cons_succ, List.take, List.sum_cons]
      rw [ih (acc + x) k (by simpa using hk)]
      ring

theorem getLastD_default_irrel (a : ℚ) (l : List ℚ) (d d' : ℚ) :
    (a :: l).getLastD d = (a :: l).getLastD d' := by
  induction l generalizing a with
  | nil => rfl
  | cons b l _ => simp only [List.getLastD_cons]

theorem cumsumFrom_getLastD (acc : ℚ) (xs : List ℚ) (h : xs ≠ []) :
    (cumsumFrom acc xs).getLastD 0 = acc + xs.sum := by
  induction xs generalizing acc with
  | nil => exact absurd rfl h
  | cons x xs ih =>
    cases xs with
    | nil => simp [cumsumFrom]
    | cons y ys =>
      have hne : (y :: ys) ≠ ([] : List ℚ) := by simp
      have hrw : cumsumFrom (acc + x) (y :: ys)
          = (acc + x + y) :: cumsumFrom (acc + x + y) ys := rfl
      rw [show cumsumFrom acc (x :: y :: ys)
            = (acc + x) :: cumsumFrom (acc + x) (y :: ys) from rfl,
        List.getLastD_cons, hrw,
        getLastD_default_irrel (acc + x + y) (cumsumFrom (acc + x + y) ys) (acc + x) 0,
        ← hrw, ih (acc + x) hne]
      simp
      ring

theorem countLabel_cons (x : String) (xs : List String) (acid : String) :
    countLabel (x :: xs) acid
      = countLabel xs acid + (if x = acid then 1 else 0) := by
  simp [countLabel, List.count_cons]

theorem countLabel_le_length (labels : List String) (acid : String) :
    countLabel labels acid ≤ labels.length :=
  List.count_le_length acid labels

theorem sum_map_two_valued (labels : List String) (acid : String) (a b : ℚ) :
    (labels.map (fun x => if x = acid then a else b)).sum
      = (countLabel labels acid : ℚ) * a
        + ((labels.length : ℚ) - (countLabel labels acid : ℚ)) * b := by
  induction labels with
  | nil => simp [countLabel]
  | cons x xs ih =>
    by_cases hx : x = acid
    · simp only [List.map_cons, List.sum_cons, if_pos hx, ih,
        countLabel_cons, if_pos hx, List.length_cons]
      push_cast
      ring
    · simp only [List.map_cons, List.sum_cons, if_neg hx, ih,
        countLabel_cons, if_neg hx, List.length_cons]
      push_cast
      ring

theorem increments_sum_eq_zero (labels : List String) (acid : String)
    (hm : 0 < countLabel labels acid)
    (hn : countLabel labels acid < labels.length) :
    (increments labels acid).sum = 0 := by
  have h := sum_map_two_valued labels acid
    (1 / (countLabel labels acid : ℚ))
    (-1 / ((labels.length : ℚ) - (countLabel labels acid : ℚ)))
  rw [increments, h]
  have hm' : (countLabel labels acid : ℚ) ≠ 0 := by
    exact_mod_cast Nat.pos_iff_ne_zero.mp hm
  have hn' : (labels.length : ℚ) - (countLabel labels acid : ℚ) ≠ 0 := by
    have : (countLabel labels acid : ℚ) < (labels.length : ℚ) := by
      exact_mod_cast hn
    intro hc
    have : (labels.length : ℚ) = (countLabel labels acid : ℚ) := by linarith
    linarith
  field_simp

theorem listMax_mem (xs : List ℚ) (h : xs ≠ []) : listMax xs ∈ xs := by
  induction xs with
  | nil => exact absurd rfl h
  | cons x xs ih =>
    cases xs with
    | nil => simp [listMax]
    | cons y ys =>
      rcases max_choice x (listMax (y :: ys)) with hc | hc
      · rw [show listMax (x :: y :: ys) = max x (listMax (y :: ys)) from rfl, hc]
        exact List.mem_cons_self x (y :: ys)
      · rw [show listMax (x :: y :: ys) = max x (listMax (y :: ys)) from rfl, hc]
        exact List.mem_cons_of_mem x (ih (by simp))

theorem le_listMax (xs : List ℚ) (x : ℚ) (hx : x ∈ xs) : x ≤ listMax xs := by
  induction xs with
  | nil => simp at hx
  | cons a as ih =>
    cases as with
    | nil =>
      have : x = a := by simpa using hx
      simp [listMax, this]
    | cons b bs =>
      rcases List.mem_cons.mp hx with h | h
      · rw [h, show listMax (a :: b :: bs) = max a (listMax (b :: bs)) from rfl]
        exact le_max_left _ _
      · rw [show listMax (a :: b :: bs) = max a (listMax (b :: bs)) from rfl]
        exact le_trans (ih h) (le_max_right _ _)

/-- C1, amended: for every label sequence and target, `enrichment_curves`
returns the empty list when the target is absent, and otherwise returns
the cumulative sums, in the given order, of the per-row increment array
(+1/m at matching rows, -1/(n-m) elsewhere); the final entry is 0 exactly
whenever additionally m < n.  (As stated the claim asserted a final value
of 0 for every m > 0, which fails when the target matches all rows.) -/
theorem claim_C1 (labels : List String) (acid : String) :
    (countLabel labels acid = 0 → enrichment_curves labels acid = [])
    ∧ (0 < countLabel labels acid →
        (enrichment_curves labels acid).length = labels.length
        ∧ (∀ k, k < labels.length →
            (enrichment_curves labels acid).getD k 0
              = ((increments labels acid).take (k + 1)).sum)
        ∧ (countLabel labels acid < labels.length →
            (enrichment_curves labels acid).getLastD 0 = 0)) := by
  constructor
  · intro h
    simp [enrichment_curves, h]
  · intro hm
    have hne : ¬ countLabel labels acid = 0 := Nat.pos_iff_ne_zero.mp hm
    have hcurve : enrichment_curves labels acid = cumsum (increments labels acid) := by
      simp [enrichment_curves, hne]
    have hlen : (increments labels acid).length = labels.length := by
      simp [increments]
    refine ⟨?_, ?_, ?_⟩
    · rw [hcurve, cumsum, cumsumFrom_length, hlen]
    · intro k hk
      rw [hcurve, cumsum, cumsumFrom_getD 0 _ k (by rw [hlen]; exact hk)]
      ring
    · intro hlt
      have hnil : increments labels acid ≠ [] := by
        intro hc
        rw [hc] at hlen
        simp at hlen
        omega
      rw [hcurve, cumsum, cumsumFrom_getLastD 0 _ hnil,
        increments_sum_eq_zero labels acid hm hlt]
      norm_num

/-- Witness for C1 on the toy column of the spec: the target A occurs twice
among five rows and the curve ends at 0. -/
theorem claim_C1_witness :
    0 < countLabel ["A", "A", "B", "B", "B"] "A"
    ∧ countLabel ["A", "A", "B", "B", "B"] "A"
        < (["A", "A", "B", "B", "B"] : List String).length
    ∧ (enrichment_curves ["A", "A", "B", "B", "B"] "A").getLastD 0 = 0 :=
  ⟨by decide, by decide,
    ((claim_C1 ["A", "A", "B", "B", "B"] "A").2 (by decide)).2.2 (by decide)⟩

/-- Counterexample to C1 as stated: on the one-row sequence [A] with target
A the count m = 1 is positive, yet the final curve entry is 1, not 0 (every
row matches, so every increment is +1/m and the curve ends at 1). -/
theorem claim_C1_counterexample :
    0 < countLabel ["A"] "A"
    ∧ (enrichment_curves ["A"] "A").getLastD 0 = 1
    ∧ ¬ (enrichment_curves ["A"] "A").getLastD 0 = 0 := by
  have h : enrichment_curves ["A"] "A" = [1] := by
    simp +decide only [enrichment_curves, countLabel, increments, cumsum,
      cumsumFrom, List.count_cons]
    norm_num
  refine ⟨by decide, ?_, ?_⟩
  · rw [h]
    norm_num
  · rw [h]
    norm_num

/-- C4: `twosided_pvalue` returns the fraction of null values whose
absolute value is at least the absolute observed value, and exactly 1 on an
empty null list. -/
theorem claim_C4 (obs : ℚ) (null : List ℚ) :
    (null ≠ [] →
      twosided_pvalue obs null
        = ((null.countP (fun x => decide (|x| ≥ |obs|))) : ℚ) / (null.length : ℚ))
    ∧ twosided_pvalue obs [] = 1 := by
  constructor
  · intro h
    have hlen : ¬ null.length = 0 := by
      have := List.length_pos.mpr h
      omega
    rw [twosided_pvalue, if_neg hlen, List.countP_eq_length_filter]
  · rfl

/-- Witness for C4 with observed value 2 and null list [1, -3]: exactly one
of the two null values has absolute value at least 2. -/
theorem claim_C4_witness :
    ([(1 : ℚ), -3] ≠ ([] : List ℚ))
    ∧ twosided_pvalue 2 [1, -3]
        = ((([(1 : ℚ), -3].countP (fun x => decide (|x| ≥ |(2 : ℚ)|))) : ℚ)
            / (([(1 : ℚ), -3] : List ℚ).length : ℚ)) :=
  ⟨by simp, (claim_C4 2 [1, -3]).1 (by simp)⟩

/-- C5: on a non-empty curve, `enrichment_score` returns a curve entry
whose absolute value dominates every entry (sign preserved, first such
entry on ties); on the toy curve of the spec the score is 1, attained at
index 1. -/
theorem claim_C5 (curve : List ℚ) (h : curve ≠ []) :
    enrichment_score curve ∈ curve
    ∧ (∀ x ∈ curve, |x| ≤ |enrichment_score curve|)
    ∧ enrichment_curves ["A", "A", "B", "B", "B"] "A" = [1/2, 1, 2/3, 1/3, 0]
    ∧ enrichment_score [1/2, 1, 2/3, 1/3, 0] = 1
    ∧ argmaxIdx (([1/2, 1, 2/3, 1/3, 0] : List ℚ).map (fun x => |x|)) = 1 := by
  have hys : curve.map (fun x => |x|) ≠ [] := by simpa using h
  have hmem : listMax (curve.map (fun x => |x|)) ∈ curve.map (fun x => |x|) :=
    listMax_mem _ hys
  have hidx : argmaxIdx (curve.map (fun x => |x|)) < (curve.map (fun x => |x|)).length := by
    rw [argmaxIdx]
    exact List.indexOf_lt_length.mpr hmem
  have hidxc : argmaxIdx (curve.map (fun x => |x|)) < curve.length := by
    simpa using hidx
  have hscore : enrichment_score curve
      = curve.get ⟨argmaxIdx (curve.map (fun x => |x|)), hidxc⟩ := by
    rw [enrichment_score, List.getD_eq_getElem curve 0 hidxc]
    rfl
  have habs : |enrichment_score curve| = listMax (curve.map (fun x => |x|)) := by
    rw [hscore]
    have hget : (curve.map (fun x => |x|)).get ⟨argmaxIdx (curve.map (fun x => |x|)), hidx⟩
        = listMax (curve.map (fun x => |x|)) :=
      List.indexOf_get (List.indexOf_lt_length.mpr hmem)
    rw [← hget]
    simp [List.get_eq_getElem, List.getElem_map]
  refine ⟨?_, ?_, ?_, ?_, ?_⟩
  · rw [hscore]
    exact List.get_mem curve _ _
  · intro x hx
    rw [habs]
    exact le_listMax _ _ (List.mem_map_of_mem (fun x => |x|) hx)
  · simp +decide only [enrichment_curves, countLabel, increments, cumsum,
      cumsumFrom, List.count_cons]
    norm_num
  · have h1 : ([1/2, 1, 2/3, 1/3, 0] : List ℚ).map (fun x => |x|)
        = [1/2, 1, 2/3, 1/3, 0] := by
      norm_num [abs_of_nonneg]
    rw [enrichment_score, argmaxIdx, h1]
    have h2 : listMax [1/2, 1, 2/3, 1/3, 0] = 1 := by
      norm_num [listMax, max_def]
    rw [h2]
    have h3 : List.indexOf (1 : ℚ) [1/2, 1, 2/3, 1/3, 0] = 1 := by
      norm_num [List.indexOf_cons, cond_eq_if, beq_iff_eq]
    rw [h3]
    norm_num
  · have h1 : ([1/2, 1, 2/3, 1/3, 0] : List ℚ).map (fun x => |x|)
        = [1/2, 1, 2/3, 1/3, 0] := by
      norm_num [abs_of_nonneg]
    rw [argmaxIdx, h1]
    have h2 : listMax [1/2, 1, 2/3, 1/3, 0] = 1 := by
      norm_num [listMax, max_def]
    rw [h2]
    norm_num [List.indexOf_cons, cond_eq_if, beq_iff_eq]

/-- Witness for C5 on the toy curve: it is non-empty and its enrichment
score is one of its entries. -/
theorem claim_C5_witness :
    (([1/2, 1, 2/3, 1/3, 0] : List ℚ) ≠ [])
    ∧ enrichment_score [1/2, 1, 2/3, 1/3, 0] ∈ ([1/2, 1, 2/3, 1/3, 0] : List ℚ) :=
  ⟨by simp, (claim_C5 [1/2, 1, 2/3, 1/3, 0] (by simp)).1⟩

/-- C6: the mean-mode reducer (the spec-modelled `enrichment_auc`, absent
from enrichment.py but invoked by every paper script) is the arithmetic
mean of the curve entries, agrees with the mode-auc reduction used for the
null scores, and evaluates to 1/2 on the toy curve of the spec. -/
theorem claim_C6 (curve : List ℚ) :
    (curve ≠ [] → enrichment_auc curve = curve.sum / (curve.length : ℚ))
    ∧ reduceMode "auc" curve = some (enrichment_auc curve)
    ∧ enrichment_auc [1/2, 1, 2/3, 1/3, 0] = 1/2
    ∧ enrichment_auc (enrichment_curves ["A", "A", "B", "B", "B"] "A") = 1/2 := by
  refine ⟨fun _ => rfl, rfl, ?_, ?_⟩
  · norm_num [enrichment_auc, listMean]
  · have hcurve : enrichment_curves ["A", "A", "B", "B", "B"] "A"
        = [1/2, 1, 2/3, 1/3, 0] := by
      simp +decide only [enrichment_curves, countLabel, increments, cumsum,
        cumsumFrom, List.count_cons]
      norm_num
    rw [hcurve]
    norm_num [enrichment_auc, listMean]

/-- Witness for C6 on the toy curve: it is non-empty and its AUC is its
sum divided by its length. -/
theorem claim_C6_witness :
    (([1/2, 1, 2/3, 1/3, 0] : List ℚ) ≠ [])
    ∧ enrichment_auc [1/2, 1, 2/3, 1/3, 0]
        = ([1/2, 1, 2/3, 1/3, 0] : List ℚ).sum
            / ((([1/2, 1, 2/3, 1/3, 0] : List ℚ).length : ℚ)) :=
  ⟨by simp, (claim_C6 [1/2, 1, 2/3, 1/3, 0]).1 (by simp)⟩

theorem map_getD_range (xs : List ℚ) :
    (List.range xs.length).map (fun i => xs.getD i 0) = xs := by
  induction xs with
  | nil => rfl
  | cons x xs ih =>
    rw [List.length_cons, List.range_succ_eq_map]
    simp only [List.map_cons, List.map_map]
    rw [show ((fun i => (x :: xs).getD i 0) ∘ Nat.succ) = (fun i => xs.getD i 0) from
      funext (fun i => List.getD_cons_succ)]
    rw [ih]
    rfl

theorem applyPerm_perm (p : List ℕ) (xs : List ℚ)
    (hp : p.Perm (List.range xs.length)) : (applyPerm p xs).Perm xs := by
  have h := hp.map (fun i => xs.getD i 0)
  rw [map_getD_range xs] at h
  exact h

theorem permuted_perm (perms : ℕ → List ℕ) (xs : List ℚ)
    (hp : ∀ k, (perms k).Perm (List.range xs.length)) :
    ∀ k, (permuted perms xs k).Perm xs := by
  intro k
  induction k with
  | zero => exact List.Perm.refl xs
  | succ k ih =>
    have hlen : (permuted perms xs k).length = xs.length := ih.length_eq
    have hpk : (perms k).Perm (List.range (permuted perms xs k).length) := by
      rw [hlen]
      exact hp k
    exact (applyPerm_perm (perms k) (permuted perms xs k) hpk).trans ih

theorem mapM_eq_map_of_some (l : List ℕ) (f : ℕ → Option ℚ) (g : ℕ → ℚ)
    (h : ∀ a ∈ l, f a = some (g a)) : l.mapM f = some (l.map g) := by
  induction l with
  | nil => rfl
  | cons a l ih =>
    rw [List.mapM_cons, h a (List.mem_cons_self a l),
      ih (fun b hb => h b (List.mem_cons_of_mem a hb))]
    rfl

theorem getD_map_range {α : Type} (f : ℕ → α) (d : α) (n k : ℕ) (hk : k < n) :
    ((List.range n).map f).getD k d = f k := by
  rw [List.getD_eq_getElem _ _ (by simpa using hk)]
  simp

/-- C3: with the target present and a valid mode, `enrichment_scores_null`
returns exactly `n_perm` scores in permutation order, each equal to the
selected reducer (mean for auc, most extreme value for max) of the
cumulative sums of some permutation of the fixed increment array; the
increment multiset, hence m and n, is identical in every trial. -/
theorem claim_C3 (labels : List String) (acid : String) (n_perm : ℕ)
    (mode : String) (perms : ℕ → List ℕ)
    (hm : 0 < countLabel labels acid)
    (hmode : mode = "auc" ∨ mode = "max")
    (hperm : ∀ k, (perms k).Perm (List.range labels.length)) :
    ∃ l, enrichment_scores_null labels acid n_perm mode perms = some l
      ∧ l.length = n_perm
      ∧ ∀ k, k < n_perm → ∃ arr : List ℚ,
          arr.Perm (increments labels acid)
          ∧ arr.length = labels.length
          ∧ (∀ q : ℚ, arr.count q = (increments labels acid).count q)
          ∧ l.getD k 0
              = (if mode = "auc" then listMean (cumsum arr)
                 else enrichment_score (cumsum arr)) := by
  have hne : ¬ countLabel labels acid = 0 := Nat.pos_iff_ne_zero.mp hm
  have hlen_inc : (increments labels acid).length = labels.length := by
    simp [increments]
  have hperm2 : ∀ k, (perms k).Perm (List.range (increments labels acid).length) := by
    rw [hlen_inc]
    exact hperm
  have hp : ∀ k, (permuted perms (increments labels acid) k).Perm (increments labels acid) :=
    permuted_perm _ _ hperm2
  have hsome : ∀ a ∈ List.range n_perm,
      reduceMode mode (cumsum (permuted perms (increments labels acid) (a + 1)))
        = some (if mode = "auc"
            then listMean (cumsum (permuted perms (increments labels acid) (a + 1)))
            else enrichment_score (cumsum (permuted perms (increments labels acid) (a + 1)))) := by
    intro a _
    rcases hmode with hmo | hmo
    · simp [reduceMode, hmo]
    · simp [reduceMode, hmo]
  refine ⟨(List.range n_perm).map (fun k =>
      if mode = "auc"
      then listMean (cumsum (permuted perms (increments labels acid) (k + 1)))
      else enrichment_score (cumsum (permuted perms (increments labels acid) (k + 1)))),
    ?_, by simp, ?_⟩
  · rw [enrichment_scores_null, if_neg hne]
    exact mapM_eq_map_of_some _ _ _ hsome
  · intro k hk
    refine ⟨permuted perms (increments labels acid) (k + 1), hp (k + 1), ?_, ?_, ?_⟩
    · rw [(hp (k + 1)).length_eq, hlen_inc]
    · intro q
      exact (hp (k + 1)).count_eq q
    · exact getD_map_range _ 0 n_perm k hk

/-- Witness for C3: two rows, target present once, one permutation trial
with the swap permutation. -/
theorem claim_C3_witness :
    ∃ l, enrichment_scores_null ["A", "B"] "A" 1 "auc" (fun _ => [1, 0]) = some l
      ∧ l.length = 1
      ∧ ∀ k, k < 1 → ∃ arr : List ℚ,
          arr.Perm (increments ["A", "B"] "A")
          ∧ arr.length = (["A", "B"] : List String).length
          ∧ (∀ q : ℚ, arr.count q = (increments ["A", "B"] "A").count q)
          ∧ l.getD k 0
              = (if "auc" = "auc" then listMean (cumsum arr)
                 else enrichment_score (cumsum arr)) :=
  by
  have hp : ∀ k : ℕ,
      ((fun _ : ℕ => ([1, 0] : List ℕ)) k).Perm
        (List.range (["A", "B"] : List String).length) := by
    intro k
    show ([1, 0] : List ℕ).Perm (List.range (["A", "B"] : List String).length)
    decide
  exact claim_C3 ["A", "B"] "A" 1 "auc" (fun _ => [1, 0]) (by decide) (Or.inl rfl) hp

theorem keep_pred_eq (sc_index sc_col : List ℕ) (cv : ℕ) (r : ℕ × String) :
    (!((((sc_index.zip sc_col).filter (fun pr => decide (pr.2 < cv))).map
        (fun pr => pr.1)).contains r.1))
      = decide (∀ pr ∈ sc_index.zip sc_col, pr.1 = r.1 → ¬ pr.2 < cv) := by
  have hcm : (((sc_index.zip sc_col).filter (fun pr => decide (pr.2 < cv))).map
      (fun pr => pr.1)).contains r.1 = true ↔
      r.1 ∈ (((sc_index.zip sc_col).filter (fun pr => decide (pr.2 < cv))).map
        (fun pr => pr.1)) := List.elem_iff
  by_cases hm : r.1 ∈ (((sc_index.zip sc_col).filter (fun pr => decide (pr.2 < cv))).map
      (fun pr => pr.1))
  · have h1 : (!((((sc_index.zip sc_col).filter (fun pr => decide (pr.2 < cv))).map
        (fun pr => pr.1)).contains r.1)) = false := by
      rw [Bool.not_eq_false']
      exact hcm.mpr hm
    rw [h1]
    symm
    rw [decide_eq_false_iff_not]
    intro hall
    rcases List.mem_map.mp hm with ⟨pr, hprf, hpr1⟩
    rcases List.mem_filter.mp hprf with ⟨hz, hlt⟩
    exact hall pr hz hpr1 (by simpa using hlt)
  · have h1 : (!((((sc_index.zip sc_col).filter (fun pr => decide (pr.2 < cv))).map
        (fun pr => pr.1)).contains r.1)) = true := by
      rw [Bool.not_eq_true']
      rw [← Bool.not_eq_true]
      intro hc
      exact hm (hcm.mp hc)
    rw [h1]
    symm
    rw [decide_eq_true_iff]
    intro pr hz hpr1 hlt
    exact hm (List.mem_map.mpr ⟨pr, List.mem_filter.mpr ⟨hz, by simpa using hlt⟩, hpr1⟩)

theorem dfColumn_map_fst (columns : List String) (rows : List (ℕ × List String))
    (column : String) :
    (dfColumn columns rows column).map (fun r => r.1) = rows.map (fun r => r.1) := by
  simp [dfColumn, List.map_map]

/-- C7: with the stop-codon rows taken from the matrix, the filter returns
the target column with exactly the rows removed whose stop-codon position
is strictly before the column's number; the result is a sublist of the
column (relative order preserved) and the column is returned unmodified
when no removal applies. -/
theorem claim_C7 (columns : List String) (rows : List (ℕ × List String))
    (column : String) (sc_index sc_col : List ℕ)
    (h : ∀ x ∈ sc_index, x ∈ rows.map (fun r => r.1)) :
    remove_peptides_with_stopcodon columns rows column sc_index sc_col
      = some ((dfColumn columns rows column).filter
          (fun r => decide (∀ pr ∈ sc_index.zip sc_col,
            pr.1 = r.1 → ¬ pr.2 < posNumber column)))
    ∧ (∀ l, remove_peptides_with_stopcodon columns rows column sc_index sc_col = some l →
        l.Sublist (dfColumn columns rows column))
    ∧ ((∀ pr ∈ sc_index.zip sc_col, ¬ pr.2 < posNumber column) →
        remove_peptides_with_stopcodon columns rows column sc_index sc_col
          = some (dfColumn columns rows column)) := by
  have hfilter_eq : (dfColumn columns rows column).filter
        (fun r => !((((sc_index.zip sc_col).filter
          (fun pr => decide (pr.2 < posNumber column))).map (fun pr => pr.1)).contains r.1))
      = (dfColumn columns rows column).filter
        (fun r => decide (∀ pr ∈ sc_index.zip sc_col,
          pr.1 = r.1 → ¬ pr.2 < posNumber column)) :=
    List.filter_congr (fun r _ => keep_pred_eq sc_index sc_col (posNumber column) r)
  have hfirst : remove_peptides_with_stopcodon columns rows column sc_index sc_col
      = some ((dfColumn columns rows column).filter
          (fun r => decide (∀ pr ∈ sc_index.zip sc_col,
            pr.1 = r.1 → ¬ pr.2 < posNumber column))) := by
    by_cases hlen : (((sc_index.zip sc_col).filter
        (fun pr => decide (pr.2 < posNumber column))).map (fun pr => pr.1)).length > 0
    · have hall : (((sc_index.zip sc_col).filter
          (fun pr => decide (pr.2 < posNumber column))).map (fun pr => pr.1)).all
            (fun x => ((dfColumn columns rows column).map (fun r => r.1)).contains x)
          = true := by
        rw [List.all_eq_true]
        intro x hx
        rcases List.mem_map.mp hx with ⟨pr, hprf, hpr1⟩
        rcases List.mem_filter.mp hprf with ⟨hz, _⟩
        have hxsc : x ∈ sc_index := by
          rw [← hpr1]
          exact (List.of_mem_zip hz).1
        rw [dfColumn_map_fst]
        exact List.elem_iff.mpr (h x hxsc)
      simp only [remove_peptides_with_stopcodon]
      rw [if_pos hlen, if_pos hall, hfilter_eq]
    · have hnil : (((sc_index.zip sc_col).filter
          (fun pr => decide (pr.2 < posNumber column))).map (fun pr => pr.1)) = [] := by
        rw [← List.length_eq_zero]
        omega
      have hpred : ∀ r ∈ dfColumn columns rows column,
          decide (∀ pr ∈ sc_index.zip sc_col,
            pr.1 = r.1 → ¬ pr.2 < posNumber column) = true := by
        intro r _
        rw [decide_eq_true_iff]
        intro pr hz hpr1 hlt
        have : pr.1 ∈ (((sc_index.zip sc_col).filter
            (fun pr => decide (pr.2 < posNumber column))).map (fun pr => pr.1)) :=
          List.mem_map.mpr ⟨pr, List.mem_filter.mpr ⟨hz, by simpa using hlt⟩, rfl⟩
        rw [hnil] at this
        simp at this
      simp only [remove_peptides_with_stopcodon]
      rw [if_neg hlen, List.filter_eq_self.mpr hpred]
  refine ⟨hfirst, ?_, ?_⟩
  · intro l hl
    rw [hfirst] at hl
    injection hl with hl
    rw [← hl]
    exact List.filter_sublist _
  · intro hno
    have hpred : ∀ r ∈ dfColumn columns rows column,
        decide (∀ pr ∈ sc_index.zip sc_col,
          pr.1 = r.1 → ¬ pr.2 < posNumber column) = true := by
      intro r _
      rw [decide_eq_true_iff]
      intro pr hz _
      exact hno pr hz
    rw [hfirst, List.filter_eq_self.mpr hpred]

/-- Witness for C7, the scenario of the spec: a stop codon in row 3 at
1-based position 5; querying column Pos05 keeps row 3, querying Pos06
drops it (checked through the filter characterisation at Pos06). -/
theorem claim_C7_witness :
    (∀ x ∈ [3], x ∈ ([(1, ["a"]), (2, ["b"]), (3, ["c"])] :
        List (ℕ × List String)).map (fun r => r.1))
    ∧ remove_peptides_with_stopcodon ["Pos06"]
        [(1, ["a"]), (2, ["b"]), (3, ["c"])] "Pos06" [3] [5]
      = some ((dfColumn ["Pos06"] [(1, ["a"]), (2, ["b"]), (3, ["c"])] "Pos06").filter
          (fun r : ℕ × String => decide (∀ pr ∈ ([3] : List ℕ).zip ([5] : List ℕ),
            pr.1 = r.1 → ¬ pr.2 < posNumber "Pos06"))) :=
  ⟨by decide,
    (claim_C7 ["Pos06"] [(1, ["a"]), (2, ["b"]), (3, ["c"])] "Pos06" [3] [5]
      (by decide)).1⟩

theorem posLabel_ne_raw (p : ℕ) :
    posLabel p ≠ "Sequence" ∧ posLabel p ≠ "shrunken.log2.fold.change"
      ∧ posLabel p ≠ "ID" := by
  have hdP : ∀ t : String, ("Pos0" ++ t).data = 'P' :: 'o' :: 's' :: '0' :: t.data := by
    intro t
    rw [String.data_append]
    rfl
  have hdQ : ∀ t : String, ("Pos" ++ t).data = 'P' :: 'o' :: 's' :: t.data := by
    intro t
    rw [String.data_append]
    rfl
  refine ⟨?_, ?_, ?_⟩ <;>
    · intro h
      have hd := congrArg String.data h
      rw [posLabel] at hd
      split at hd <;> simp [hdP, hdQ] at hd

theorem foldl_dfAssign (f : ℕ → List String) (positions : List ℕ)
    (df : List (String × List String))
    (hnew : ∀ p ∈ positions, ∀ col ∈ df, col.1 ≠ posLabel p)
    (hnd : (positions.map posLabel).Nodup) :
    positions.foldl (fun acc p => dfAssign acc (posLabel p) (f p)) df
      = df ++ positions.map (fun p => (posLabel p, f p)) := by
  induction positions generalizing df with
  | nil => simp
  | cons p ps ih =>
    rw [List.map_cons] at hnd
    have hnd' := List.nodup_cons.mp hnd
    rw [List.foldl_cons]
    have hnot : df.any (fun col => col.1 == posLabel p) = false := by
      rw [← Bool.not_eq_true, List.any_eq_true]
      rintro ⟨col, hcol, hbeq⟩
      exact hnew p (List.mem_cons_self p ps) col hcol (by simpa using hbeq)
    have hassign : dfAssign df (posLabel p) (f p) = df ++ [(posLabel p, f p)] := by
      rw [dfAssign, if_neg]
      simp [hnot]
    rw [hassign, ih (df ++ [(posLabel p, f p)])]
    · simp
    · intro q hq col hcol
      rcases List.mem_append.mp hcol with hcol | hcol
      · exact hnew q (List.mem_cons_of_mem _ hq) col hcol
      · have hc : col = (posLabel p, f p) := by simpa using hcol
        rw [hc]
        intro hce
        have hmem : posLabel q ∈ ps.map posLabel := List.mem_map_of_mem _ hq
        rw [← hce] at hmem
        exact hnd'.1 hmem
    · exact hnd'.2

/-- C9, amended: for distinct requested 0-based positions, `load` produces
exactly one column per requested position, in request order, whose cells
index each sequence at that offset in source row order; the 1-based label
is prefixed with Pos0 when the 0-based index is below 10 and with Pos
otherwise (so index 0 yields Pos01 but index 9 yields Pos010, which has
three digits), and the Sequence, fold-change and ID columns are dropped.
(As stated the claim asserted that no produced label has more than two
digits, which fails at index 9.) -/
theorem claim_C9 (seqs fold ids : List String) (positions : List ℕ)
    (hnd : (positions.map posLabel).Nodup) :
    load seqs fold ids positions
      = positions.map (fun p => (posLabel p, seqs.map (fun s => seqCharAt s p)))
    ∧ (∀ p ∈ positions, posLabel p
        = (if p < 10 then "Pos0" else "Pos") ++ toString (p + 1))
    ∧ (∀ col ∈ load seqs fold ids positions,
        col.1 ≠ "Sequence" ∧ col.1 ≠ "shrunken.log2.fold.change" ∧ col.1 ≠ "ID")
    ∧ (∀ p, p < 23 → ∀ q, q < 23 → posLabel p = posLabel q → p = q) := by
  have hnew : ∀ p ∈ positions, ∀ col ∈
      ([("Sequence", seqs), ("shrunken.log2.fold.change", fold), ("ID", ids)] :
        List (String × List String)), col.1 ≠ posLabel p := by
    intro p _ col hcol
    rcases posLabel_ne_raw p with ⟨h1, h2, h3⟩
    simp only [List.mem_cons, List.not_mem_nil, or_false] at hcol
    rcases hcol with h | h | h
    · rw [h]
      exact fun hc => h1 hc.symm
    · rw [h]
      exact fun hc => h2 hc.symm
    · rw [h]
      exact fun hc => h3 hc.symm
  have hfold := foldl_dfAssign (fun p => seqs.map (fun s => seqCharAt s p)) positions
    [("Sequence", seqs), ("shrunken.log2.fold.change", fold), ("ID", ids)] hnew hnd
  have hrest : ∀ col ∈ positions.map
      (fun p => (posLabel p, seqs.map (fun s => seqCharAt s p))),
      col.1 ≠ "Sequence" ∧ col.1 ≠ "shrunken.log2.fold.change" ∧ col.1 ≠ "ID" := by
    intro col hcol
    rcases List.mem_map.mp hcol with ⟨p, _, hp⟩
    rw [← hp]
    exact posLabel_ne_raw p
  have hload : load seqs fold ids positions
      = positions.map (fun p => (posLabel p, seqs.map (fun s => seqCharAt s p))) := by
    simp only [load]
    rw [hfold]
    have s1 : (([("Sequence", seqs), ("shrunken.log2.fold.change", fold), ("ID", ids)] :
        List (String × List String))
          ++ positions.map (fun p => (posLabel p, seqs.map (fun s => seqCharAt s p)))).filter
          (fun col => !(col.1 == "Sequence"))
        = [("shrunken.log2.fold.change", fold), ("ID", ids)]
          ++ positions.map (fun p => (posLabel p, seqs.map (fun s => seqCharAt s p))) := by
      rw [List.filter_append]
      congr 1
      exact List.filter_eq_self.mpr (fun col hcol => by
        simpa using (hrest col hcol).1)
    rw [s1]
    have s2 : (([("shrunken.log2.fold.change", fold), ("ID", ids)] :
        List (String × List String))
          ++ positions.map (fun p => (posLabel p, seqs.map (fun s => seqCharAt s p)))).filter
          (fun col => !(col.1 == "shrunken.log2.fold.change"))
        = [("ID", ids)]
          ++ positions.map (fun p => (posLabel p, seqs.map (fun s => seqCharAt s p))) := by
      rw [List.filter_append]
      congr 1
      exact List.filter_eq_self.mpr (fun col hcol => by
        simpa using (hrest col hcol).2.1)
    rw [s2]
    have s3 : (([("ID", ids)] : List (String × List String))
          ++ positions.map (fun p => (posLabel p, seqs.map (fun s => seqCharAt s p)))).filter
          (fun col => !(col.1 == "ID"))
        = positions.map (fun p => (posLabel p, seqs.map (fun s => seqCharAt s p))) := by
      rw [List.filter_append]
      have : (([("ID", ids)] : List (String × List String)).filter
          (fun col => !(col.1 == "ID"))) = [] := rfl
      rw [this]
      rw [List.nil_append]
      exact List.filter_eq_self.mpr (fun col hcol => by
        simpa using (hrest col hcol).2.2)
    rw [s3]
  refine ⟨hload, ?_, ?_, ?_⟩
  · intro p _
    rw [posLabel]
    split <;> rfl
  · intro col hcol
    rw [hload] at hcol
    exact hrest col hcol
  · decide

/-- Witness for C9: two distinct positions 0 and 9 on a ten-character
sequence produce exactly the two position columns in request order. -/
theorem claim_C9_witness :
    (([0, 9].map posLabel).Nodup)
    ∧ load ["abcdefghij"] ["0.5"] ["pep1"] [0, 9]
        = [0, 9].map (fun p => (posLabel p, ["abcdefghij"].map (fun s => seqCharAt s p))) :=
  ⟨by decide, (claim_C9 ["abcdefghij"] ["0.5"] ["pep1"] [0, 9] (by decide)).1⟩

/-- Counterexample to C9 as stated: requested index 9 produces the column
label Pos010, which contains three digit characters, not at most two. -/
theorem claim_C9_counterexample :
    (load ["abcdefghij"] ["0.5"] ["pep1"] [9]).map (fun col => col.1) = ["Pos010"]
    ∧ ("Pos010".data.filter Char.isDigit).length = 3
    ∧ ¬ ("Pos010".data.filter Char.isDigit).length ≤ 2 := by
  refine ⟨by decide, by decide, by decide⟩

theorem insertSorted_perm {α : Type} (le : α → α → Bool) (x : α) (l : List α) :
    (insertSorted le x l).Perm (x :: l) := by
  induction l with
  | nil => exact List.Perm.refl _
  | cons y ys ih =>
    rw [insertSorted]
    split
    · exact List.Perm.refl _
    · exact (ih.cons y).trans (List.Perm.swap x y ys)

theorem sortBy_perm {α : Type} (le : α → α → Bool) (l : List α) :
    (sortBy le l).Perm l := by
  induction l with
  | nil => exact List.Perm.refl _
  | cons x xs ih =>
    exact (insertSorted_perm le x (sortBy le xs)).trans (ih.cons x)

theorem mem_insertSorted {α : Type} (le : α → α → Bool) (x a : α) (l : List α) :
    a ∈ insertSorted le x l ↔ a = x ∨ a ∈ l := by
  rw [(insertSorted_perm le x l).mem_iff]
  exact List.mem_cons

theorem pairwise_insertSorted {α : Type} (le : α → α → Bool)
    (htrans : ∀ a b c, le a b = true → le b c = true → le a c = true)
    (htot : ∀ a b, le a b = true ∨ le b a = true)
    (x : α) (l : List α) (hl : l.Pairwise (fun a b => le a b = true)) :
    (insertSorted le x l).Pairwise (fun a b => le a b = true) := by
  induction l with
  | nil => simp [insertSorted]
  | cons y ys ih =>
    rw [insertSorted]
    rcases List.pairwise_cons.mp hl with ⟨hy, hys⟩
    split
    case isTrue h =>
      rw [List.pairwise_cons]
      refine ⟨?_, hl⟩
      intro b hb
      rcases List.mem_cons.mp hb with hb | hb
      · rw [hb]
        exact h
      · exact htrans x y b h (hy b hb)
    case isFalse h =>
      rw [List.pairwise_cons]
      refine ⟨?_, ih hys⟩
      intro b hb
      rcases (mem_insertSorted le x b ys).mp hb with hb | hb
      · rw [hb]
        rcases htot x y with hxy | hyx
        · exact absurd hxy h
        · exact hyx
      · exact hy b hb

theorem pairwise_sortBy {α : Type} (le : α → α → Bool)
    (htrans : ∀ a b c, le a b = true → le b c = true → le a c = true)
    (htot : ∀ a b, le a b = true ∨ le b a = true) (l : List α) :
    (sortBy le l).Pairwise (fun a b => le a b = true) := by
  induction l with
  | nil => exact List.Pairwise.nil
  | cons x xs ih => exact pairwise_insertSorted le htrans htot x (sortBy le xs) ih

theorem leIdx_trans (p : List ℚ) : ∀ a b c,
    leIdx p a b = true → leIdx p b c = true → leIdx p a c = true := by
  intro a b c hab hbc
  rw [leIdx, decide_eq_true_iff] at hab hbc ⊢
  rcases hab with h1 | ⟨h1, h1n⟩ <;> rcases hbc with h2 | ⟨h2, h2n⟩
  · exact Or.inl (lt_trans h1 h2)
  · exact Or.inl (h2 ▸ h1)
  · exact Or.inl (h1 ▸ h2)
  · exact Or.inr ⟨h1.trans h2, le_trans h1n h2n⟩

theorem leIdx_total (p : List ℚ) : ∀ a b,
    leIdx p a b = true ∨ leIdx p b a = true := by
  intro a b
  rw [leIdx, leIdx, decide_eq_true_iff, decide_eq_true_iff]
  rcases lt_trichotomy (p.getD a 0) (p.getD b 0) with h | h | h
  · exact Or.inl (Or.inl h)
  · rcases le_total a b with hab | hba
    · exact Or.inl (Or.inr ⟨h, hab⟩)
    · exact Or.inr (Or.inr ⟨h.symm, hba⟩)
  · exact Or.inr (Or.inl h)

theorem leIdx_ne_ltIdx (p : List ℚ) (a b : ℕ) (hle : leIdx p a b = true)
    (hne : a ≠ b) : ltIdx p a b = true := by
  rw [leIdx, decide_eq_true_iff] at hle
  rw [ltIdx, decide_eq_true_iff]
  rcases hle with h | ⟨h, hn⟩
  · exact Or.inl h
  · exact Or.inr ⟨h, lt_of_le_of_ne hn hne⟩

theorem ltIdx_asymm_of_leIdx (p : List ℚ) (a b : ℕ) (hle : leIdx p a b = true)
    (_hne : a ≠ b) : ltIdx p b a = false := by
  rw [leIdx, decide_eq_true_iff] at hle
  rw [ltIdx, decide_eq_false_iff_not]
  rintro (h | ⟨h, hn⟩)
  · rcases hle with h1 | ⟨h1, _⟩
    · exact absurd h (not_lt_of_lt h1)
    · exact absurd h (h1 ▸ lt_irrefl _)
  · rcases hle with h1 | ⟨h1, h1n⟩
    · exact absurd h1 (h ▸ lt_irrefl _)
    · exact absurd hn (not_lt_of_le h1n)

theorem ltIdx_irrefl (p : List ℚ) (a : ℕ) : ltIdx p a a = false := by
  rw [ltIdx, decide_eq_false_iff_not]
  rintro (h | ⟨_, h⟩)
  · exact lt_irrefl _ h
  · exact lt_irrefl _ h

theorem indexOf_sorted_filter (p : List ℚ) (l : List ℕ)
    (hs : l.Pairwise (fun a b => leIdx p a b = true)) (hn : l.Nodup) (i : ℕ)
    (hi : i ∈ l) :
    l.indexOf i = (l.filter (fun j => ltIdx p j i)).length := by
  induction l with
  | nil => simp at hi
  | cons x xs ih =>
    rcases List.pairwise_cons.mp hs with ⟨hx, hxs⟩
    rcases List.nodup_cons.mp hn with ⟨hxmem, hxsn⟩
    by_cases hxi : x = i
    · rw [hxi, List.indexOf_cons_self]
      have hfilter : (i :: xs).filter (fun j => ltIdx p j i) = [] := by
        rw [List.filter_eq_nil_iff]
        intro a ha
        rcases List.mem_cons.mp ha with ha | ha
        · rw [ha, ltIdx_irrefl]
          simp
        · have hne : i ≠ a := by
            intro hc
            rw [hxi] at hxmem
            exact hxmem (hc ▸ ha)
          rw [ltIdx_asymm_of_leIdx p i a (hxi ▸ hx a ha) hne]
          simp
      rw [hfilter]
      rfl
    · have hixs : i ∈ xs := by
        rcases List.mem_cons.mp hi with h | h
        · exact absurd h.symm hxi
        · exact h
      have hlt : ltIdx p x i = true :=
        leIdx_ne_ltIdx p x i (hx i hixs) hxi
      rw [List.indexOf_cons_ne _ (by exact hxi), List.filter_cons_of_pos (by exact hlt),
        List.length_cons, ih hxs hxsn hixs]

theorem getD_take_of_lt {α : Type} (l : List α) (c j : ℕ) (d : α) (hj : j < c) :
    (l.take c).getD j d = l.getD j d := by
  by_cases h : j < l.length
  · have h1 : j < (l.take c).length := by
      rw [List.length_take]
      omega
    rw [List.getD_eq_getElem _ _ h1, List.getD_eq_getElem _ _ h]
    exact List.getElem_take l
  · rw [List.getD_eq_default _ _ (by rw [List.length_take]; omega),
      List.getD_eq_default _ _ (by omega)]

theorem getD_drop_add {α : Type} (l : List α) (n m : ℕ) (d : α) :
    (l.drop n).getD m d = l.getD (n + m) d := by
  by_cases h : n + m < l.length
  · have h1 : m < (l.drop n).length := by
      rw [List.length_drop]
      omega
    rw [List.getD_eq_getElem _ _ h1, List.getD_eq_getElem _ _ h]
    exact List.getElem_drop l
  · rw [List.getD_eq_default _ _ (by rw [List.length_drop]; omega),
      List.getD_eq_default _ _ (by omega)]

theorem sortIdx_perm (p : List ℚ) : (sortIdx p).Perm (List.range p.length) :=
  sortBy_perm (leIdx p) (List.range p.length)

theorem sortIdx_nodup (p : List ℚ) : (sortIdx p).Nodup :=
  (sortIdx_perm p).nodup_iff.mpr (List.nodup_range p.length)

theorem mem_sortIdx (p : List ℚ) (i : ℕ) (hi : i < p.length) : i ∈ sortIdx p :=
  (sortIdx_perm p).mem_iff.mpr (List.mem_range.mpr hi)

theorem indexOf_sortIdx (p : List ℚ) (i : ℕ) (hi : i < p.length) :
    (sortIdx p).indexOf i + 1 = bh_rank p i := by
  rw [indexOf_sorted_filter p (sortIdx p)
      (pairwise_sortBy _ (leIdx_trans p) (leIdx_total p) _)
      (sortIdx_nodup p) i (mem_sortIdx p i hi),
    ← List.countP_eq_length_filter, bh_rank,
    (sortIdx_perm p).countP_eq (fun j => ltIdx p j i)]

theorem bh_fst_length (p : List ℚ) (alpha : ℚ) :
    (benjamini_hochberg p alpha).1.length = p.length := by
  simp [benjamini_hochberg]

theorem bh_fst_getD (p : List ℚ) (alpha : ℚ) (i : ℕ) (hi : i < p.length) :
    (benjamini_hochberg p alpha).1.getD i false
      = decide (p.getD i 0 ≤ alpha * ((bh_rank p i : ℚ) / (p.length : ℚ))) := by
  simp only [benjamini_hochberg]
  rw [getD_map_range _ false _ i hi, getD_map_range _ 0 _ i hi]
  have hr := indexOf_sortIdx p i hi
  have hq : ((((sortIdx p).indexOf i) + 1 : ℕ) : ℚ) = (bh_rank p i : ℚ) := by
    exact_mod_cast congrArg (fun n : ℕ => (n : ℚ)) hr
  rw [show ((((sortIdx p).indexOf i) + 1 : ℕ) : ℚ) = (bh_rank p i : ℚ) from hq]

theorem reshape2_length (r c : ℕ) (xs : List Bool) :
    (reshape2 r c xs).length = r := by
  induction r generalizing xs with
  | zero => rfl
  | succ r ih => simp [reshape2, ih]

theorem reshape2_row_length (r c : ℕ) (xs : List Bool) (hlen : xs.length = r * c) :
    ∀ row ∈ reshape2 r c xs, row.length = c := by
  induction r generalizing xs with
  | zero => simp [reshape2]
  | succ r ih =>
    intro row hrow
    rcases List.mem_cons.mp hrow with h | h
    · rw [h, List.length_take]
      have : c ≤ xs.length := by
        rw [hlen, Nat.succ_mul]
        omega
      omega
    · exact ih (xs.drop c) (by rw [List.length_drop, hlen, Nat.succ_mul]; omega) row h

theorem reshape2_getD (r c : ℕ) (xs : List Bool) (i j : ℕ) (hi : i < r) (hj : j < c) :
    ((reshape2 r c xs).getD i []).getD j false = xs.getD (i * c + j) false := by
  induction r generalizing xs i with
  | zero => omega
  | succ r ih =>
    cases i with
    | zero =>
      rw [show reshape2 (r + 1) c xs = xs.take c :: reshape2 r c (xs.drop c) from rfl]
      rw [List.getD_cons_zero, getD_take_of_lt xs c j false hj]
      norm_num
    | succ i =>
      rw [show reshape2 (r + 1) c xs = xs.take c :: reshape2 r c (xs.drop c) from rfl]
      rw [List.getD_cons_succ, ih (xs.drop c) i (by omega), getD_drop_add]
      congr 1
      ring

theorem flatten_length_rect (M : List (List ℚ)) (c : ℕ)
    (hrect : ∀ row ∈ M, row.length = c) : M.flatten.length = M.length * c := by
  induction M with
  | nil => simp
  | cons row rows ih =>
    rw [List.flatten_cons, List.length_append,
      hrect row (List.mem_cons_self row rows),
      ih (fun r hr => hrect r (List.mem_cons_of_mem row hr)), List.length_cons]
    ring

theorem flatten_getD_rect (M : List (List ℚ)) (c : ℕ)
    (hrect : ∀ row ∈ M, row.length = c) (i j : ℕ) (hi : i < M.length) (hj : j < c)
    (d : ℚ) : M.flatten.getD (i * c + j) d = (M.getD i []).getD j d := by
  induction M generalizing i with
  | nil => simp at hi
  | cons row rows ih =>
    have hrl : row.length = c := hrect row (List.mem_cons_self row rows)
    cases i with
    | zero =>
      rw [List.flatten_cons, List.getD_cons_zero]
      have : (0 : ℕ) * c + j = j := by ring
      rw [this]
      exact List.getD_append row rows.flatten d j (by omega)
    | succ i =>
      rw [List.flatten_cons, List.getD_cons_succ]
      have harith : (i + 1) * c + j = row.length + (i * c + j) := by
        rw [hrl]
        ring
      rw [harith, List.getD_append_right row rows.flatten d _ (by omega)]
      have : row.length + (i * c + j) - row.length = i * c + j := by omega
      rw [this]
      exact ih (fun r hr => hrect r (List.mem_cons_of_mem row hr)) i (by simpa using hi)

theorem fdr_correction_getD (M : List (List ℚ)) (alpha : ℚ) (c : ℕ)
    (hrect : ∀ row ∈ M, row.length = c)
    (i j : ℕ) (hi : i < M.length) (hj : j < c) :
    ((fdr_correction M alpha).getD i []).getD j false
      = decide ((M.getD i []).getD j 0
          ≤ alpha * ((bh_rank M.flatten (i * c + j) : ℚ) / (M.flatten.length : ℚ))) := by
  have hc : (M.headD []).length = c := by
    cases M with
    | nil => simp at hi
    | cons row rows => exact hrect row (List.mem_cons_self row rows)
  have hflatlen : M.flatten.length = M.length * c := flatten_length_rect M c hrect
  have hidx : i * c + j < M.flatten.length := by
    rw [hflatlen]
    calc i * c + j < i * c + c := by omega
      _ = (i + 1) * c := by ring
      _ ≤ M.length * c := Nat.mul_le_mul_right c hi
  rw [fdr_correction, hc, reshape2_getD M.length c _ i j hi hj,
    bh_fst_getD M.flatten alpha (i * c + j) hidx,
    flatten_getD_rect M c hrect i j hi hj]

/-- C2: `fdr_correction` flattens the matrix row-major, applies one global
Benjamini-Hochberg pass assigning index `i` the threshold
`alpha * rank_i / N` (1-indexed ascending rank, ties broken by original
position, no monotone step-up adjustment), marks significant iff the
p-value is at most its threshold, and reshapes back to the input shape;
on [0.01, 0.04, 0.03, 0.20] with alpha = 0.1 the thresholds in original
order are [0.025, 0.075, 0.05, 0.1] (i.e. 0.025, 0.05, 0.075, 0.1 assigned
to ranks 1..4) and the mask is [true, true, true, false]. -/
theorem claim_C2 (M : List (List ℚ)) (alpha : ℚ) (c : ℕ)
    (hrect : ∀ row ∈ M, row.length = c)
    (i j : ℕ) (hi : i < M.length) (hj : j < c) :
    (fdr_correction M alpha).length = M.length
    ∧ (∀ row ∈ fdr_correction M alpha, row.length = c)
    ∧ ((fdr_correction M alpha).getD i []).getD j false
        = decide ((M.getD i []).getD j 0
            ≤ alpha * ((bh_rank M.flatten (i * c + j) : ℚ) / (M.flatten.length : ℚ)))
    ∧ (benjamini_hochberg [1/100, 1/25, 3/100, 1/5] (1/10)).1
        = [true, true, true, false]
    ∧ (benjamini_hochberg [1/100, 1/25, 3/100, 1/5] (1/10)).2
        = [1/40, 3/40, 1/20, 1/10] := by
  have hc : (M.headD []).length = c := by
    cases M with
    | nil => simp at hi
    | cons row rows => exact hrect row (List.mem_cons_self row rows)
  have hflatlen : M.flatten.length = M.length * c := flatten_length_rect M c hrect
  have hfdr : fdr_correction M alpha
      = reshape2 M.length c ((benjamini_hochberg M.flatten alpha).1) := by
    rw [fdr_correction, hc]
  have hblen : (benjamini_hochberg M.flatten alpha).1.length = M.length * c := by
    rw [bh_fst_length, hflatlen]
  refine ⟨?_, ?_, ?_, ?_, ?_⟩
  · rw [hfdr, reshape2_length]
  · rw [hfdr]
    exact reshape2_row_length M.length c _ hblen
  · exact fdr_correction_getD M alpha c hrect i j hi hj
  · have hs : sortIdx [1/100, 1/25, 3/100, 1/5] = [0, 2, 1, 3] := by
      have hr : List.range (([1/100, 1/25, 3/100, 1/5] : List ℚ).length)
          = [0, 1, 2, 3] := by
        decide
      rw [sortIdx, hr]
      norm_num [sortBy, insertSorted, leIdx, List.getD_cons_zero, List.getD_cons_succ]
    simp only [benjamini_hochberg, hs]
    norm_num [List.range_succ, List.indexOf_cons, cond_eq_if, beq_iff_eq,
      List.getD_cons_zero, List.getD_cons_succ]
  · have hs : sortIdx [1/100, 1/25, 3/100, 1/5] = [0, 2, 1, 3] := by
      have hr : List.range (([1/100, 1/25, 3/100, 1/5] : List ℚ).length)
          = [0, 1, 2, 3] := by
        decide
      rw [sortIdx, hr]
      norm_num [sortBy, insertSorted, leIdx, List.getD_cons_zero, List.getD_cons_succ]
    simp only [benjamini_hochberg, hs]
    norm_num [List.range_succ, List.indexOf_cons, cond_eq_if, beq_iff_eq,
      List.getD_cons_zero, List.getD_cons_succ]

/-- Witness for C2 on the 2x2 matrix holding the four example p-values. -/
theorem claim_C2_witness :
    (fdr_correction [[1/100, 1/25], [3/100, 1/5]] (1/10)).length
        = ([[1/100, 1/25], [3/100, 1/5]] : List (List ℚ)).length
    ∧ (∀ row ∈ fdr_correction [[1/100, 1/25], [3/100, 1/5]] (1/10), row.length = 2)
    ∧ ((fdr_correction [[1/100, 1/25], [3/100, 1/5]] (1/10)).getD 1 []).getD 1 false
        = decide ((([[1/100, 1/25], [3/100, 1/5]] : List (List ℚ)).getD 1 []).getD 1 0
            ≤ (1/10) * ((bh_rank ([[1/100, 1/25], [3/100, 1/5]] :
                  List (List ℚ)).flatten (1 * 2 + 1) : ℚ)
                / ((([[1/100, 1/25], [3/100, 1/5]] : List (List ℚ)).flatten.length : ℚ))))
    ∧ (benjamini_hochberg [1/100, 1/25, 3/100, 1/5] (1/10)).1
        = [true, true, true, false]
    ∧ (benjamini_hochberg [1/100, 1/25, 3/100, 1/5] (1/10)).2
        = [1/40, 3/40, 1/20, 1/10] :=
  claim_C2 [[1/100, 1/25], [3/100, 1/5]] (1/10) 2 (by norm_num) 1 1 (by norm_num)
    (by norm_num)

/-- C10: in the figure_1b pipeline, a (position, acid) cell whose acid does
not occur in its stop-codon-filtered column keeps the `np.zeros` initial
value 0 in the raw p-value matrix, and the global Benjamini-Hochberg
correction marks every 0 entry significant for any alpha above 0, so every
such absent cell is marked significant in the output mask. -/
theorem claim_C10 (cols : List (List String)) (acids : List String)
    (n_perm : ℕ) (perms : ℕ → List ℕ) (alpha : ℚ) (i j : ℕ)
    (hi : i < cols.length) (hj : j < acids.length)
    (habs : countLabel (cols.getD i []) (acids.getD j "") = 0)
    (halpha : 0 < alpha) :
    ((pval_raw_matrix cols acids n_perm perms).getD i []).getD j 0 = 0
    ∧ ((fdr_correction (pval_raw_matrix cols acids n_perm perms) alpha).getD
        i []).getD j false = true := by
  have hlen : (pval_raw_matrix cols acids n_perm perms).length = cols.length := by
    simp [pval_raw_matrix]
  have hrect : ∀ row ∈ pval_raw_matrix cols acids n_perm perms,
      row.length = acids.length := by
    intro row hrow
    rcases List.mem_map.mp hrow with ⟨col, _, hcol⟩
    rw [← hcol]
    simp
  have hcell : ((pval_raw_matrix cols acids n_perm perms).getD i []).getD j 0
      = pval_raw_cell (cols.getD i []) (acids.getD j "") n_perm perms := by
    have hi2 : i < (pval_raw_matrix cols acids n_perm perms).length := by
      rw [hlen]
      exact hi
    rw [List.getD_eq_getElem _ [] hi2]
    simp only [pval_raw_matrix, List.getElem_map]
    rw [List.getD_eq_getElem _ 0 (by simpa using hj)]
    simp only [List.getElem_map]
    rw [List.getD_eq_getElem cols [] hi, List.getD_eq_getElem acids "" hj]
  have h0 : pval_raw_cell (cols.getD i []) (acids.getD j "") n_perm perms = 0 := by
    rw [pval_raw_cell, if_pos habs]
  refine ⟨by rw [hcell, h0], ?_⟩
  rw [fdr_correction_getD (pval_raw_matrix cols acids n_perm perms) alpha
      acids.length hrect i j (by rw [hlen]; exact hi) hj,
    hcell, h0]
  rw [decide_eq_true_iff]
  have hrank : (0 : ℚ) < (bh_rank (pval_raw_matrix cols acids n_perm perms).flatten
      (i * acids.length + j) : ℚ) := by
    have : 0 < bh_rank (pval_raw_matrix cols acids n_perm perms).flatten
        (i * acids.length + j) := by
      rw [bh_rank]
      omega
    exact_mod_cast this
  have hN : (0 : ℚ) < ((pval_raw_matrix cols acids n_perm perms).flatten.length : ℚ) := by
    have hf := flatten_length_rect (pval_raw_matrix cols acids n_perm perms)
      acids.length hrect
    have : 0 < (pval_raw_matrix cols acids n_perm perms).flatten.length := by
      rw [hf, hlen]
      exact Nat.mul_pos (by omega) (by omega)
    exact_mod_cast this
  exact le_of_lt (mul_pos halpha (div_pos hrank hN))

/-- Witness for C10: a single-cell pipeline where acid B never occurs in
the only column; the cell keeps p-value 0 and is marked significant. -/
theorem claim_C10_witness :
    (((pval_raw_matrix [["A"]] ["B"] 0 (fun _ => [])).getD 0 []).getD 0 0 = 0)
    ∧ ((fdr_correction (pval_raw_matrix [["A"]] ["B"] 0 (fun _ => [])) (1/10)).getD
        0 []).getD 0 false = true :=
  claim_C10 [["A"]] ["B"] 0 (fun _ => []) (1/10) 0 0 (by decide) (by decide)
    (by decide) (by norm_num)

/-- C8: every record emitted by the pairwise conditional scan re-tests a
position different from the conditioning position (the conditioning column
is dropped from the filtered frame), and its delta is the score of
(position2, acid2) on the frame filtered to rows where position1 holds
acid1 with position1 dropped, minus the original unfiltered score. -/
theorem claim_C8 (df : List (String × List String)) (mode : String)
    (_hmode : mode = "max" ∨ mode = "auc")
    (rec : InteractionRecord) (hrec : rec ∈ conditional_interactions df mode) :
    rec.position2 ≠ rec.position1
    ∧ rec.delta = scoreOf (dropCol (filterRows df
        ((getCol df rec.position1).map (fun v => v == rec.acid1))) rec.position1)
        mode rec.position2 rec.acid2
      - scoreOf df mode rec.position2 rec.acid2
    ∧ rec.score2 = scoreOf (dropCol (filterRows df
        ((getCol df rec.position1).map (fun v => v == rec.acid1))) rec.position1)
        mode rec.position2 rec.acid2
    ∧ rec.original2 = scoreOf df mode rec.position2 rec.acid2 := by
  rcases List.mem_flatMap.mp hrec with ⟨position1, hp1, hrec1⟩
  rcases List.mem_flatMap.mp hrec1 with ⟨acid1, ha1, hrec2⟩
  rcases List.mem_flatMap.mp hrec2 with ⟨position2, hp2, hrec3⟩
  rcases List.mem_map.mp hrec3 with ⟨acid2, ha2, hrec4⟩
  rw [← hrec4]
  have hne : position2 ≠ position1 := by
    have hmem : position2 ∈ (dropCol (filterRows df
        ((getCol df position1).map (fun v => v == acid1))) position1).map
          (fun col => col.1) :=
      (sortBy_perm strLeB _).mem_iff.mp hp2
    rcases List.mem_map.mp hmem with ⟨col, hcol, hcol1⟩
    rcases List.mem_filter.mp hcol with ⟨_, hkeep⟩
    intro hc
    rw [hcol1, hc] at hkeep
    simp at hkeep
  exact ⟨hne, rfl, rfl, rfl⟩

/-- Witness for C8: on the two-position one-row frame, the record
conditioning on (Pos01, A) and re-testing (Pos02, B) is emitted, re-tests
a different position, and carries the filtered-minus-original delta. -/
theorem claim_C8_witness :
    exampleRecord ∈ conditional_interactions exampleFrame "auc"
    ∧ exampleRecord.position2 ≠ exampleRecord.position1
    ∧ exampleRecord.delta = scoreOf (dropCol (filterRows exampleFrame
        ((getCol exampleFrame exampleRecord.position1).map
          (fun v => v == exampleRecord.acid1))) exampleRecord.position1)
        "auc" exampleRecord.position2 exampleRecord.acid2
      - scoreOf exampleFrame "auc" exampleRecord.position2 exampleRecord.acid2 := by
  have hmem : exampleRecord ∈ conditional_interactions exampleFrame "auc" :=
    List.mem_flatMap.mpr ⟨"Pos01", by decide,
      List.mem_flatMap.mpr ⟨"A", by decide,
        List.mem_flatMap.mpr ⟨"Pos02", by decide,
          List.mem_map.mpr ⟨"B", by decide, rfl⟩⟩⟩⟩
  have h := claim_C8 exampleFrame "auc" (Or.inr rfl) exampleRecord hmem
  exact ⟨hmem, h.1, h.2.1⟩
